import Mathlib

/-!
Verification of the suppression-scanning core of `eslint-disable-scanner`
(`src/checker.ts`) against its natural-language specification.

The embedding models file contents and names as lists of characters
(`Str`).  File discovery, the per-file ignore query and the effective
config computation are external collaborator boundaries; the scan core is
modelled as a pure function from a list of already-discovered files — each
a triple of relative name, effective config and content — to the list of
findings plus the pass/fail verdict (`true` = the source throws
`Found disabled ESLint error rules`).
-/

/-- Characters of a JavaScript string. -/
abbrev Str := List Char

/-- JavaScript `\s` character class (also the set removed by `trim`). -/
def isJsWs (c : Char) : Bool :=
  c == ' ' || c == '\t' || c == '\n' || c == '\r' ||
  c == Char.ofNat 0x0B || c == Char.ofNat 0x0C ||
  c == Char.ofNat 0xA0 || c == Char.ofNat 0x1680 ||
  (decide (0x2000 ≤ c.toNat) && decide (c.toNat ≤ 0x200A)) ||
  c == Char.ofNat 0x2028 || c == Char.ofNat 0x2029 ||
  c == Char.ofNat 0x202F || c == Char.ofNat 0x205F ||
  c == Char.ofNat 0x3000 || c == Char.ofNat 0xFEFF

/-- JavaScript line terminators (the characters `.` does not match). -/
def isLineTerm (c : Char) : Bool :=
  c == '\n' || c == '\r' || c == Char.ofNat 0x2028 || c == Char.ofNat 0x2029

/-- JavaScript `String.prototype.trim`. -/
def jsTrim (s : Str) : Str :=
  ((s.dropWhile isJsWs).reverse.dropWhile isJsWs).reverse

/-- JavaScript `String.prototype.split` on a single separator character:
`"a,b".split(',')` gives `["a","b"]`, `"".split(',')` gives `[""]`. -/
def splitOnElem (sep : Char) : Str → List Str
  | [] => [[]]
  | c :: t =>
    let r := splitOnElem sep t
    if c = sep then [] :: r
    else
      match r with
      | [] => [[c]]
      | h :: tl => (c :: h) :: tl

/-- Whether `p` is a leading segment of `s` (JS `startsWith`). -/
def strStarts : Str → Str → Bool
  | [], _ => true
  | _ :: _, [] => false
  | a :: p, b :: s => a == b && strStarts p s

/-- 0-based index of the first occurrence of `p` in `s`, if any. -/
def idxAux (p : Str) : Str → Option Nat
  | [] => if strStarts p [] then some 0 else none
  | c :: t =>
    if strStarts p (c :: t) then some 0
    else (idxAux p t).map (fun n => n + 1)

/-- JavaScript `String.prototype.indexOf`: first occurrence or `-1`. -/
def jsIndexOf (s p : Str) : Int :=
  match idxAux p s with
  | some n => (n : Int)
  | none => -1

/-- Severity levels returned by `getRuleLevel` in `src/checker.ts`. -/
inductive Severity
  | off
  | warning
  | error
deriving DecidableEq

/-- A raw severity token inside an ESLint rule entry: a number, a string,
or any other JSON value (options object etc.). -/
inductive SevTok
  | num (n : Int)
  | str (s : Str)
  | other
deriving DecidableEq

/-- The raw value of `config.rules[ruleName]`: a bare number, a bare
string, or an array whose first element is the severity token. -/
inductive RuleVal
  | num (n : Int)
  | str (s : Str)
  | arr (ts : List SevTok)
deriving DecidableEq

/-- The effective rule→severity mapping of a file's resolved ESLint
config (`config.rules`), as an association list. -/
abbrev Config := List (Str × RuleVal)

/-- JavaScript property lookup `config.rules?.[ruleName]`. -/
def lookupRule : Config → Str → Option RuleVal
  | [], _ => none
  | (k, v) :: t, r => if k = r then some v else lookupRule t r

/-- JavaScript falsiness of a rule value (`!rule`): the number `0` and the
empty string are falsy; arrays are always truthy. -/
def isFalsyRule : RuleVal → Bool
  | RuleVal.num n => n == 0
  | RuleVal.str s => s.isEmpty
  | RuleVal.arr _ => false

/-- `Array.isArray(rule) ? rule[0] : rule` — the severity token of a rule
value (`none` when the array is empty, i.e. `rule[0]` is `undefined`). -/
def sevTokOf : RuleVal → Option SevTok
  | RuleVal.num n => some (SevTok.num n)
  | RuleVal.str s => some (SevTok.str s)
  | RuleVal.arr ts => ts.head?

/-- The `if`-chain of `getRuleLevel` comparing the severity token against
`'off'`/`0`, `'warn'`/`1`, `'error'`/`2` (strict equality, so a number
never equals a string). -/
def tokLevel : Option SevTok → Severity
  | some (SevTok.str s) =>
    if s = ("off".toList) then Severity.off
    else if s = ("warn".toList) then Severity.warning
    else if s = ("error".toList) then Severity.error
    else Severity.off
  | some (SevTok.num n) =>
    if n = 0 then Severity.off
    else if n = 1 then Severity.warning
    else if n = 2 then Severity.error
    else Severity.off
  | some SevTok.other => Severity.off
  | none => Severity.off

/-- `getRuleLevel` from `src/checker.ts`: severity of `ruleName` in the
effective config. -/
def getRuleLevel (config : Config) (ruleName : Str) : Severity :=
  match lookupRule config ruleName with
  | none => Severity.off
  | some rule =>
    if isFalsyRule rule then Severity.off
    else tokLevel (sevTokOf rule)

/-- One reported suppression instance (`DisabledRule` in
`src/checker.ts`).  `column` is an `Int` because the source computes it as
`line.indexOf(rule) + 1`, which would be `0` if `indexOf` returned `-1`. -/
structure DisabledRule where
  file : Str
  line : Nat
  column : Int
  type : Severity
  rule : Str
deriving DecidableEq

/-- `rulesStr.split(',').map(r => r.trim()).filter(Boolean)` — the parsed
rule-name list of a directive. -/
def parseRules (rulesStr : Str) : List Str :=
  ((splitOnElem ',' rulesStr).map jsTrim).filter (fun r => !r.isEmpty)

/-- The literal marker of a suppression directive. -/
def disableMarker : Str := ("eslint-disable".toList)

/-- The `-next-line` qualifier. -/
def nextLineQual : Str := ("-next-line".toList)

/-- The `-line` qualifier. -/
def lineQual : Str := ("-line".toList)

/-- The `\s+(.*)` tail of the line regex: at least one whitespace
character, then the capture group (greedy `.` stops at a line
terminator). -/
def matchTail (t : Str) : Option Str :=
  if (t.takeWhile isJsWs).isEmpty then none
  else some ((t.dropWhile isJsWs).takeWhile (fun c => !(isLineTerm c)))

/-- First-success choice between two optional results (the regex engine
trying one alternative, then the next). -/
def orO (a b : Option Str) : Option Str :=
  match a with
  | some x => some x
  | none => b

/-- Attempt of `/eslint-disable(?:-next-line|-line)?\s+(.*)/` at the start
of `s`, with the regex engine's backtracking over the optional qualifier
(alternatives tried in order, then the empty qualifier). -/
def lineMatchAt (s : Str) : Option Str :=
  if strStarts disableMarker s then
    orO
      (if strStarts nextLineQual (s.drop disableMarker.length) then
         matchTail ((s.drop disableMarker.length).drop nextLineQual.length)
       else none)
      (orO
        (if strStarts lineQual (s.drop disableMarker.length) then
           matchTail ((s.drop disableMarker.length).drop lineQual.length)
         else none)
        (matchTail (s.drop disableMarker.length)))
  else none

/-- `line.match(/eslint-disable(?:-next-line|-line)?\s+(.*)/)` — the
capture group of the leftmost match, if any. -/
def lineMatch : Str → Option Str
  | [] => none
  | c :: t =>
    match lineMatchAt (c :: t) with
    | some cap => some cap
    | none => lineMatch t

/-- Attempt of `/\/\*\s*eslint-disable\s+([^\*]*)\*\//` at the start of
`s`; on success returns the capture and the remainder of the input after
the full match. -/
def matchBlockAt (s : Str) : Option (Str × Str) :=
  match s with
  | '/' :: '*' :: t =>
    let t1 := t.dropWhile isJsWs
    if strStarts disableMarker t1 then
      let t2 := t1.drop disableMarker.length
      if (t2.takeWhile isJsWs).isEmpty then none
      else
        let t3 := t2.dropWhile isJsWs
        let cap := t3.takeWhile (fun c => c != '*')
        match t3.dropWhile (fun c => c != '*') with
        | '*' :: '/' :: rest => some (cap, rest)
        | _ => none
    else none
  | _ => none

/-- Fuelled scan of the global `blockDisableRegex.exec` loop: successive
leftmost matches, each continuing after the previous full match.  The
fuel is only a termination device; `blockScan` supplies enough. -/
def blockScanF : Nat → Str → List Str
  | 0, _ => []
  | _ + 1, [] => []
  | fuel + 1, c :: t =>
    match matchBlockAt (c :: t) with
    | some (cap, rest) => cap :: blockScanF fuel rest
    | none => blockScanF fuel t

/-- All captures of the block-form regex over the whole content. -/
def blockScan (s : Str) : List Str := blockScanF s.length s

/-- The body of both `disabledRules.push` sites: resolve the severity,
skip the candidate when it is `off`, otherwise build the record. -/
def pushCandidate (file : Str) (config : Config) (ln : Nat) (col : Int)
    (rule : Str) : Option DisabledRule :=
  if getRuleLevel config rule = Severity.off then none
  else some ⟨file, ln, col, getRuleLevel config rule, rule⟩

/-- Findings of the block-form loop (`while ((matchBlock = ...))`): every
candidate is reported at line 1, column 1. -/
def blockFindings (file : Str) (config : Config) (content : Str) :
    List DisabledRule :=
  (blockScan content).flatMap (fun rulesStr =>
    (parseRules rulesStr).filterMap (pushCandidate file config 1 1))

/-- The rule names extracted from one line by the line-form scanner. -/
def lineRules (l : Str) : List Str :=
  match lineMatch l with
  | none => []
  | some rulesStr => parseRules rulesStr

/-- Candidates of one line of the `lines.forEach` loop: line `idx + 1`,
column `line.indexOf(rule) + 1`. -/
def candidatesOfLine (file : Str) (config : Config) (idx : Nat) (l : Str) :
    List DisabledRule :=
  (lineRules l).filterMap (fun rule =>
    pushCandidate file config (idx + 1) (jsIndexOf l rule + 1) rule)

/-- The `lines.forEach((line, idx) => ...)` loop, with the running index
made explicit. -/
def lineFindingsAux (file : Str) (config : Config) :
    Nat → List Str → List DisabledRule
  | _, [] => []
  | idx, l :: rest =>
    candidatesOfLine file config idx l ++
      lineFindingsAux file config (idx + 1) rest

/-- Findings of the line-form pass over `content.split('\n')`. -/
def lineFindings (file : Str) (config : Config) (content : Str) :
    List DisabledRule :=
  lineFindingsAux file config 0 (splitOnElem '\n' content)

/-- All findings the per-file loop body pushes for one file, in push
order (block pass first, then the line pass). -/
def scanFile (file : Str) (config : Config) (content : Str) :
    List DisabledRule :=
  blockFindings file config content ++ lineFindings file config content

/-- The scan core of `runChecker`: given the discovered files (relative
name, effective config, content), the accumulated findings list and
whether the run throws `Found disabled ESLint error rules`
(`disabledRules.some(item => item.type === 'error')`). -/
def runChecker (inputs : List (Str × Config × Str)) :
    List DisabledRule × Bool :=
  let disabledRules := inputs.flatMap (fun i => scanFile i.1 i.2.1 i.2.2)
  (disabledRules, disabledRules.any (fun item => decide (item.type = Severity.error)))

/-- The line of `content` at 0-based index `n` (empty when out of
range). -/
def lineAt (content : Str) (n : Nat) : Str :=
  (splitOnElem '\n' content).getD n []

/-- Modelled from the spec: normalization of a raw severity token per
§4.3 — "absent or 0/'off' → disabled; 1/'warn' → warning; 2/'error' →
error; any other/unrecognized token → disabled".  Used only to compare
`getRuleLevel` against the spec's words. -/
def specSeverityOfTok : SevTok → Severity
  | SevTok.num n =>
    if n = 1 then Severity.warning
    else if n = 2 then Severity.error
    else Severity.off
  | SevTok.str s =>
    if s = ("warn".toList) then Severity.warning
    else if s = ("error".toList) then Severity.error
    else Severity.off
  | SevTok.other => Severity.off

/-- Modelled from the spec: the full normalization of a rule entry per
§4.3 — absent → disabled; "when the configured value is a list, its first
element is taken as the severity token". -/
def specNormalize : Option RuleVal → Severity
  | none => Severity.off
  | some (RuleVal.num n) => specSeverityOfTok (SevTok.num n)
  | some (RuleVal.str s) => specSeverityOfTok (SevTok.str s)
  | some (RuleVal.arr ts) =>
    match ts.head? with
    | none => Severity.off
    | some t => specSeverityOfTok t

/-- Modelled from the spec: rule-list parsing per §4.4 splits the
directive text "on a separator token consisting of two consecutive
hyphens surrounded by optional whitespace (`--`) into at most two parts";
the right part, trimmed, is the justification when non-empty.  This
parsing is absent from `src/checker.ts`. -/
def justificationOf (s : Str) : Option Str :=
  match idxAux ("--".toList) s with
  | none => none
  | some i =>
    let r := jsTrim (s.drop (i + 2))
    if r.isEmpty then none else some r

/-- Modelled from the spec: `justificationMissing` of a directive whose
extracted text is `s` — true when no separator or an empty right part. -/
def justificationMissingSpec (s : Str) : Bool :=
  (justificationOf s).isNone

/-- Modelled from the spec: the left part of the `--` split — the
comma-separated rule-name list of §4.4. -/
def rulesPartSpec (s : Str) : Str :=
  match idxAux ("--".toList) s with
  | none => s
  | some i => s.take i

/-- Modelled from the spec: `AllowlistPolicy` of §3 — a set of exempt
rule names and a sequence of exempt path glob patterns.  The allowlist
loader and evaluator are absent from `src/checker.ts`. -/
structure AllowlistPolicy where
  exemptRules : List Str
  exemptPathPatterns : List Str

/-- Modelled from the spec: shell-glob matching with `*` not crossing
`/` and `**` matching across path separators (§4.5 step 1).  Fuelled for
termination; `globMatch` supplies ample fuel. -/
def globMatchF : Nat → Str → Str → Bool
  | 0, _, _ => false
  | _ + 1, [], s => s.isEmpty
  | fuel + 1, '*' :: '*' :: p, s =>
    globMatchF fuel p s ||
      (match s with
       | [] => false
       | _ :: t => globMatchF fuel ('*' :: '*' :: p) t)
  | fuel + 1, '*' :: p, s =>
    globMatchF fuel p s ||
      (match s with
       | [] => false
       | c :: t => !(c == '/') && globMatchF fuel ('*' :: p) t)
  | fuel + 1, '?' :: p, s =>
    match s with
    | [] => false
    | c :: t => !(c == '/') && globMatchF fuel p t
  | fuel + 1, c :: p, s =>
    match s with
    | [] => false
    | d :: t => c == d && globMatchF fuel p t

/-- Modelled from the spec: glob match of one pattern against a path. -/
def globMatch (p s : Str) : Bool :=
  globMatchF (p.length + s.length + 1) p s

/-- Modelled from the spec: whether a file matches any allowlist path
pattern (§4.5 step 1). -/
def pathAllowed (policy : AllowlistPolicy) (file : Str) : Bool :=
  policy.exemptPathPatterns.any (fun p => globMatch p file)

/-- Modelled from the spec: the Policy Evaluator's allowlist steps (§4.5
steps 1–2) layered over the source scanner — drop every candidate of an
allowlisted file, and drop candidates whose rule name is exempt. -/
def scanFileAllow (policy : AllowlistPolicy) (file : Str) (config : Config)
    (content : Str) : List DisabledRule :=
  if pathAllowed policy file then []
  else (scanFile file config content).filter
    (fun f => decide (f.rule ∉ policy.exemptRules))

/-- Modelled from the spec: the whole-run findings list under an
allowlist policy. -/
def runCheckerAllow (policy : AllowlistPolicy)
    (inputs : List (Str × Config × Str)) : List DisabledRule :=
  inputs.flatMap (fun i => scanFileAllow policy i.1 i.2.1 i.2.2)

/-- `p` occurs as a contiguous segment of `s`. -/
def SubSeg (p s : Str) : Prop := ∃ u v, s = u ++ p ++ v

/-- Config mapping `foo` to error severity (`2`). -/
def cfgFooError : Config := [(("foo".toList), RuleVal.num 2)]

/-- Config mapping `no-console` to error severity (`2`). -/
def cfgNoConsole : Config := [(("no-console".toList), RuleVal.num 2)]

/-- Config mapping `no-unused-vars` to warning severity (`1`). -/
def cfgNoUnusedVars : Config := [(("no-unused-vars".toList), RuleVal.num 1)]

/-- Config mapping both `foo` and `bar` to error severity (`2`). -/
def cfgFooBarError : Config :=
  [(("foo".toList), RuleVal.num 2), (("bar".toList), RuleVal.num 2)]

/-- A file whose only directive names `foo` and `bar` and carries a
justification after the `--` separator. -/
def contentJustified : Str := ("// eslint-disable-line foo, bar -- why".toList)

/-- The spec's round-trip example: a justified `next-line` suppression of
`no-console`, followed by the suppressed statement. -/
def contentNextLine : Str :=
  ("// eslint-disable-next-line no-console -- logging required\nconsole.log(1)".toList)

/-- A file starting with a single-line block suppression of
`no-unused-vars`. -/
def contentBlock : Str := ("/* eslint-disable no-unused-vars */\nvar x = 1".toList)

/-- A line-form directive naming two rules, with no justification. -/
def contentFooBar : Str := ("// eslint-disable-line foo, bar".toList)

/-- A line-form directive naming one rule, with no justification. -/
def contentLineFoo : Str := ("// eslint-disable-line foo".toList)

/-- A block directive with an empty rule list. -/
def contentEmptyBlock : Str := ("/* eslint-disable */".toList)

/-- A line marker followed only by whitespace. -/
def contentEmptyLine : Str := ("// eslint-disable-line   ".toList)

/-- An allowlist exempting rule `bar` and path pattern `lib/**`. -/
def policyW : AllowlistPolicy := ⟨[("bar".toList)], [("lib/**".toList)]⟩

/-- One scanned file producing exactly one finding for `foo`. -/
def inputsW : List (Str × Config × Str) :=
  [(("a.ts".toList), cfgFooError, contentLineFoo)]

/-- The finding produced by scanning `contentLineFoo` under
`cfgFooError`. -/
def findingW : DisabledRule :=
  ⟨("a.ts".toList), 1, 24, Severity.error, ("foo".toList)⟩

theorem subseg_cons {p t : Str} (c : Char) (h : SubSeg p t) :
    SubSeg p (c :: t) := by
  obtain ⟨u, v, rfl⟩ := h
  exact ⟨c :: u, v, rfl⟩

theorem subseg_trans {a b c : Str} (h1 : SubSeg a b) (h2 : SubSeg b c) :
    SubSeg a c := by
  obtain ⟨u, v, rfl⟩ := h1
  obtain ⟨x, y, rfl⟩ := h2
  exact ⟨x ++ u, v ++ y, by simp⟩

theorem dropWhile_subseg (q : Char → Bool) (l : Str) :
    SubSeg (l.dropWhile q) l :=
  ⟨l.takeWhile q, [], by simp [List.takeWhile_append_dropWhile]⟩

theorem takeWhile_subseg (q : Char → Bool) (l : Str) :
    SubSeg (l.takeWhile q) l :=
  ⟨[], l.dropWhile q, by simp [List.takeWhile_append_dropWhile]⟩

theorem drop_subseg (n : Nat) (l : Str) : SubSeg (l.drop n) l :=
  ⟨l.take n, [], by simp⟩

theorem jsTrim_subseg (s : Str) : SubSeg (jsTrim s) s := by
  have key := congrArg List.reverse
    (List.takeWhile_append_dropWhile isJsWs (s.dropWhile isJsWs).reverse)
  simp only [List.reverse_append, List.reverse_reverse] at key
  have h1 : SubSeg (jsTrim s) (s.dropWhile isJsWs) :=
    ⟨[], ((s.dropWhile isJsWs).reverse.takeWhile isJsWs).reverse, by
      simp only [jsTrim, List.nil_append]
      exact key.symm⟩
  exact subseg_trans h1 (dropWhile_subseg _ _)

theorem splitOnElem_spec (sep : Char) :
    ∀ s : Str, ∃ h tl, splitOnElem sep s = h :: tl ∧ (∃ v, s = h ++ v) ∧
      ∀ p ∈ tl, SubSeg p s := by
  intro s
  induction s with
  | nil => exact ⟨[], [], rfl, ⟨[], rfl⟩, by simp⟩
  | cons c t ih =>
    obtain ⟨h, tl, heq, ⟨v, hv⟩, hmem⟩ := ih
    by_cases hc : c = sep
    · refine ⟨[], h :: tl, ?_, ⟨c :: t, rfl⟩, ?_⟩
      · simp [splitOnElem, hc, heq]
      · intro p hp
        rcases List.mem_cons.mp hp with rfl | hp'
        · exact ⟨[c], v, by simp [hv]⟩
        · exact subseg_cons c (hmem p hp')
    · refine ⟨c :: h, tl, ?_, ⟨v, by simp [hv]⟩, ?_⟩
      · simp [splitOnElem, hc, heq]
      · intro p hp
        exact subseg_cons c (hmem p hp)

theorem mem_splitOnElem_subseg {sep : Char} {s p : Str}
    (hp : p ∈ splitOnElem sep s) : SubSeg p s := by
  obtain ⟨h, tl, heq, ⟨v, hv⟩, hmem⟩ := splitOnElem_spec sep s
  rw [heq] at hp
  rcases List.mem_cons.mp hp with rfl | hp'
  · exact ⟨[], v, by simp [hv]⟩
  · exact hmem p hp'

theorem mem_parseRules {r s : Str} (hr : r ∈ parseRules s) :
    r ≠ [] ∧ SubSeg r s := by
  unfold parseRules at hr
  obtain ⟨hmem, hne⟩ := List.mem_filter.mp hr
  obtain ⟨piece, hpiece, hr'⟩ := List.mem_map.mp hmem
  subst hr'
  refine ⟨?_, subseg_trans (jsTrim_subseg piece) (mem_splitOnElem_subseg hpiece)⟩
  intro h
  rw [h] at hne
  simp at hne

theorem matchTail_subseg {t cap : Str} (h : matchTail t = some cap) :
    SubSeg cap t := by
  unfold matchTail at h
  split at h
  · exact absurd h (by simp)
  · injection h with h'
    rw [← h']
    exact subseg_trans (takeWhile_subseg _ _) (dropWhile_subseg _ _)

theorem orO_eq_some {a b : Option Str} {c : Str} (h : orO a b = some c) :
    a = some c ∨ (a = none ∧ b = some c) := by
  cases a with
  | none => exact Or.inr ⟨rfl, h⟩
  | some x => exact Or.inl h

theorem lineMatchAt_subseg {s cap : Str} (h : lineMatchAt s = some cap) :
    SubSeg cap s := by
  have hsub : ∀ (k : Nat) (c : Str),
      matchTail ((s.drop disableMarker.length).drop k) = some c → SubSeg c s := by
    intro k c hc
    exact subseg_trans (matchTail_subseg hc)
      (subseg_trans (drop_subseg _ _) (drop_subseg _ _))
  have hsub0 : ∀ c : Str,
      matchTail (s.drop disableMarker.length) = some c → SubSeg c s := by
    intro c hc
    exact subseg_trans (matchTail_subseg hc) (drop_subseg _ _)
  unfold lineMatchAt at h
  by_cases hm : strStarts disableMarker s = true
  · rw [if_pos hm] at h
    rcases orO_eq_some h with h1 | ⟨_, h1⟩
    · by_cases hq : strStarts nextLineQual (s.drop disableMarker.length) = true
      · rw [if_pos hq] at h1
        exact hsub _ _ h1
      · rw [if_neg hq] at h1
        exact absurd h1 (by simp)
    · rcases orO_eq_some h1 with h2 | ⟨_, h2⟩
      · by_cases hq : strStarts lineQual (s.drop disableMarker.length) = true
        · rw [if_pos hq] at h2
          exact hsub _ _ h2
        · rw [if_neg hq] at h2
          exact absurd h2 (by simp)
      · exact hsub0 _ h2
  · rw [if_neg hm] at h
    exact absurd h (by simp)

theorem lineMatch_subseg : ∀ {l cap : Str},
    lineMatch l = some cap → SubSeg cap l := by
  intro l
  induction l with
  | nil => intro cap h; simp [lineMatch] at h
  | cons c t ih =>
    intro cap h
    unfold lineMatch at h
    rcases hA : lineMatchAt (c :: t) with _ | cap0
    · rw [hA] at h
      exact subseg_cons c (ih h)
    · rw [hA] at h
      injection h with h'
      subst h'
      exact lineMatchAt_subseg hA

theorem strStarts_append : ∀ p v : Str, strStarts p (p ++ v) = true := by
  intro p v
  induction p with
  | nil => rfl
  | cons a q ih => simp [strStarts, ih]

theorem idxAux_of_starts {p s : Str} (h : strStarts p s = true) :
    idxAux p s = some 0 := by
  cases s with
  | nil => simp [idxAux, h]
  | cons c t => simp [idxAux, h]

theorem idxAux_isSome {p s : Str} (h : SubSeg p s) :
    ∃ n, idxAux p s = some n := by
  obtain ⟨u, v, rfl⟩ := h
  induction u with
  | nil =>
    exact ⟨0, idxAux_of_starts (by simpa using strStarts_append p v)⟩
  | cons c u ih =>
    obtain ⟨n, hn⟩ := ih
    have hshape : ((c :: u) ++ p) ++ v = c :: ((u ++ p) ++ v) := by simp
    by_cases hs : strStarts p (c :: ((u ++ p) ++ v)) = true
    · refine ⟨0, ?_⟩
      rw [hshape]
      exact idxAux_of_starts hs
    · refine ⟨n + 1, ?_⟩
      rw [hshape]
      simp only [idxAux]
      rw [if_neg hs, hn]
      rfl

theorem jsIndexOf_nonneg {p s : Str} (h : SubSeg p s) : 0 ≤ jsIndexOf s p := by
  obtain ⟨n, hn⟩ := idxAux_isSome h
  simp [jsIndexOf, hn]

theorem pushCandidate_some {file rule : Str} {config : Config} {ln : Nat}
    {col : Int} {f : DisabledRule}
    (h : pushCandidate file config ln col rule = some f) :
    f.file = file ∧ f.line = ln ∧ f.column = col ∧ f.rule = rule ∧
      f.type = getRuleLevel config rule ∧
      getRuleLevel config rule ≠ Severity.off := by
  unfold pushCandidate at h
  split at h
  · exact absurd h (by simp)
  · injection h with h'
    subst h'
    refine ⟨rfl, rfl, rfl, rfl, rfl, ?_⟩
    assumption

theorem mem_candidatesOfLine {file l : Str} {config : Config} {idx : Nat}
    {f : DisabledRule} (h : f ∈ candidatesOfLine file config idx l) :
    f.file = file ∧ f.line = idx + 1 ∧ f.rule ∈ lineRules l ∧
      f.column = jsIndexOf l f.rule + 1 ∧
      f.type = getRuleLevel config f.rule ∧
      getRuleLevel config f.rule ≠ Severity.off := by
  unfold candidatesOfLine at h
  obtain ⟨rule, hrule, hp⟩ := List.mem_filterMap.mp h
  obtain ⟨hf, hl, hc, hr, ht, hoff⟩ := pushCandidate_some hp
  subst hr
  exact ⟨hf, hl, hrule, hc, ht, hoff⟩

theorem lineFindingsAux_mem {file : Str} {config : Config} :
    ∀ (ls : List Str) (idx : Nat) (f : DisabledRule),
      f ∈ lineFindingsAux file config idx ls →
      ∃ j, j < ls.length ∧ f.line = idx + j + 1 ∧
        f.rule ∈ lineRules (ls.getD j []) ∧
        f.column = jsIndexOf (ls.getD j []) f.rule + 1 ∧
        f.file = file ∧ f.type = getRuleLevel config f.rule ∧
        getRuleLevel config f.rule ≠ Severity.off := by
  intro ls
  induction ls with
  | nil => intro idx f h; simp [lineFindingsAux] at h
  | cons l rest ih =>
    intro idx f h
    unfold lineFindingsAux at h
    rcases List.mem_append.mp h with h1 | h2
    · obtain ⟨hf, hl, hr, hc, ht, hoff⟩ := mem_candidatesOfLine h1
      exact ⟨0, by simp, by omega, by simpa using hr, by simpa using hc,
        hf, ht, hoff⟩
    · obtain ⟨j, hj, hl, hr, hc, hf, ht, hoff⟩ := ih (idx + 1) f h2
      exact ⟨j + 1, by simpa using hj, by omega, by simpa using hr,
        by simpa using hc, hf, ht, hoff⟩

theorem mem_blockFindings {file content : Str} {config : Config}
    {f : DisabledRule} (h : f ∈ blockFindings file config content) :
    f.file = file ∧ f.line = 1 ∧ f.column = 1 ∧
      f.type = getRuleLevel config f.rule ∧
      getRuleLevel config f.rule ≠ Severity.off := by
  unfold blockFindings at h
  obtain ⟨rulesStr, hrs, hmem⟩ := List.mem_flatMap.mp h
  obtain ⟨rule, hrule, hp⟩ := List.mem_filterMap.mp hmem
  obtain ⟨hf, hl, hc, hr, ht, hoff⟩ := pushCandidate_some hp
  subst hr
  exact ⟨hf, hl, hc, ht, hoff⟩

theorem mem_scanFile {file content : Str} {config : Config} {f : DisabledRule}
    (h : f ∈ scanFile file config content) :
    f.file = file ∧ getRuleLevel config f.rule ≠ Severity.off := by
  unfold scanFile at h
  rcases List.mem_append.mp h with h1 | h2
  · obtain ⟨hf, _, _, _, hoff⟩ := mem_blockFindings h1
    exact ⟨hf, hoff⟩
  · unfold lineFindings at h2
    obtain ⟨j, _, _, _, _, hf, _, hoff⟩ := lineFindingsAux_mem _ 0 f h2
    exact ⟨hf, hoff⟩

theorem mem_lineRules {r l : Str} (h : r ∈ lineRules l) :
    r ≠ [] ∧ SubSeg r l := by
  unfold lineRules at h
  rcases hm : lineMatch l with _ | cap
  · rw [hm] at h
    simp at h
  · rw [hm] at h
    obtain ⟨hne, hsub⟩ := mem_parseRules h
    exact ⟨hne, subseg_trans hsub (lineMatch_subseg hm)⟩

theorem tokLevel_eq_spec : ∀ ot : Option SevTok,
    tokLevel ot = (match ot with
      | none => Severity.off
      | some t => specSeverityOfTok t) := by
  intro ot
  rcases ot with _ | t
  · rfl
  · rcases t with n | s | _
    · simp only [tokLevel]
      by_cases h0 : n = 0
      · subst h0
        decide
      · rw [if_neg h0]
        rfl
    · simp only [tokLevel]
      by_cases h1 : s = ("off".toList)
      · subst h1
        decide
      · rw [if_neg h1]
        rfl
    · rfl

theorem dropWhile_eq_nil_of_all {p : Char → Bool} {l : Str}
    (h : ∀ c ∈ l, p c = true) : l.dropWhile p = [] := by
  induction l with
  | nil => rfl
  | cons c t ih =>
    rw [List.dropWhile_cons, if_pos (h c (by simp))]
    exact ih (fun x hx => h x (by simp [hx]))

theorem jsTrim_eq_nil_of_all {l : Str} (h : ∀ c ∈ l, isJsWs c = true) :
    jsTrim l = [] := by
  unfold jsTrim
  rw [dropWhile_eq_nil_of_all h]
  rfl

theorem splitOnElem_of_not_mem {sep : Char} {s : Str} (h : sep ∉ s) :
    splitOnElem sep s = [s] := by
  induction s with
  | nil => rfl
  | cons c t ih =>
    have hc : ¬(c = sep) := by
      intro e
      exact h (by simp [e])
    have ht : sep ∉ t := fun m => h (by simp [m])
    simp [splitOnElem, hc, ih ht]

/-- C1: the claim says the run fails iff some Finding has severity=error
and justificationMissing=true, so a run whose error findings all carry
justification succeeds.  The code contradicts this: it never parses the
`--` separator, so the justified directive in `contentJustified` still
yields an error finding for `foo` (the justification `why` is present per
the spec's own split) and `runChecker` throws. -/
theorem c1_justified_error_still_fails :
    runChecker [(("a.ts".toList), cfgFooError, contentJustified)] =
      ([⟨("a.ts".toList), 1, 24, Severity.error, ("foo".toList)⟩], true)
    ∧ lineMatch contentJustified = some ("foo, bar -- why".toList)
    ∧ justificationMissingSpec ("foo, bar -- why".toList) = false := by
  decide

/-- C2: no Finding ever names an allowlisted rule, and a file matching an
allowlist path pattern yields zero Findings, for every policy, input set,
config and content.  (Allowlist handling is modelled from the spec; it is
absent from `src/checker.ts`.) -/
theorem c2_allowlist_exemption :
    ∀ (policy : AllowlistPolicy) (inputs : List (Str × Config × Str))
      (r fl : Str) (f : DisabledRule),
      (r ∈ policy.exemptRules → f ∈ runCheckerAllow policy inputs →
        f.rule ≠ r)
      ∧ (pathAllowed policy fl = true → f ∈ runCheckerAllow policy inputs →
        f.file ≠ fl) := by
  intro policy inputs r fl f
  constructor
  · intro hr hf
    obtain ⟨i, hi, hmem⟩ := List.mem_flatMap.mp hf
    unfold scanFileAllow at hmem
    split at hmem
    · simp at hmem
    · obtain ⟨hsf, hpred⟩ := List.mem_filter.mp hmem
      have hnot : f.rule ∉ policy.exemptRules := of_decide_eq_true hpred
      intro he
      exact hnot (he ▸ hr)
  · intro hfl hf
    obtain ⟨i, hi, hmem⟩ := List.mem_flatMap.mp hf
    unfold scanFileAllow at hmem
    split at hmem
    · simp at hmem
    · next hcond =>
        obtain ⟨hsf, _⟩ := List.mem_filter.mp hmem
        have hfile : f.file = i.1 := (mem_scanFile hsf).1
        intro he
        rw [he] at hfile
        rw [← hfile] at hcond
        exact hcond hfl

theorem c2_allowlist_exemption_witness :
    findingW.rule ≠ ("bar".toList) ∧ findingW.file ≠ ("lib/x.ts".toList) :=
  ⟨(c2_allowlist_exemption policyW inputsW ("bar".toList) ("lib/x.ts".toList)
      findingW).1 (by decide) (by decide),
   (c2_allowlist_exemption policyW inputsW ("bar".toList) ("lib/x.ts".toList)
      findingW).2 (by decide) (by decide)⟩

/-- C3: the claim says the round-trip line with a `--` justification
yields one Finding with rule=no-console, severity=error,
justificationMissing=false.  The code contradicts this: the whole text
`no-console -- logging required` is taken as one rule name, which is not
configured, so it resolves to off and zero Findings are produced — while
the spec's own split would yield the single rule `no-console` and a
present justification. -/
theorem c3_separator_not_parsed :
    runChecker [(("a.ts".toList), cfgNoConsole, contentNextLine)] = ([], false)
    ∧ lineMatch (lineAt contentNextLine 0) =
        some ("no-console -- logging required".toList)
    ∧ parseRules ("no-console -- logging required".toList) =
        [("no-console -- logging required".toList)]
    ∧ parseRules (rulesPartSpec ("no-console -- logging required".toList)) =
        [("no-console".toList)]
    ∧ justificationMissingSpec ("no-console -- logging required".toList) =
        false := by
  decide

/-- C4: severity normalization returns exactly one of off/warning/error,
per the spec's table — absent or 0/`off`/unrecognized → off, 1/`warn` →
warning, 2/`error` → error, and for a list value the first element is the
severity token.  `specNormalize` is the spec's table verbatim. -/
theorem c4_getRuleLevel_normalization :
    ∀ (config : Config) (r : Str),
      getRuleLevel config r = specNormalize (lookupRule config r) := by
  intro config r
  rcases hl : lookupRule config r with _ | v
  · simp [getRuleLevel, specNormalize, hl]
  · rcases v with n | s | ts
    · simp only [getRuleLevel, specNormalize, hl]
      by_cases h0 : n = 0
      · subst h0
        decide
      · have hf : isFalsyRule (RuleVal.num n) = false := by
          simp [isFalsyRule, h0]
        rw [hf]
        simp only [Bool.false_eq_true, if_false]
        exact tokLevel_eq_spec (some (SevTok.num n))
    · simp only [getRuleLevel, specNormalize, hl]
      by_cases hs : s = []
      · subst hs
        decide
      · have hf : isFalsyRule (RuleVal.str s) = false := by
          cases s with
          | nil => exact absurd rfl hs
          | cons c t => rfl
        rw [hf]
        simp only [Bool.false_eq_true, if_false]
        exact tokLevel_eq_spec (some (SevTok.str s))
    · simp only [getRuleLevel, specNormalize, hl, isFalsyRule, sevTokOf,
        Bool.false_eq_true, if_false]
      rcases ts with _ | ⟨t, ts'⟩
      · rfl
      · exact tokLevel_eq_spec (some t)

/-- C5: no Finding is ever produced for a rule whose effective severity
resolves to off — candidates are skipped in both scanning paths. -/
theorem c5_no_off_findings :
    ∀ (file : Str) (config : Config) (content : Str) (f : DisabledRule),
      f ∈ scanFile file config content →
      getRuleLevel config f.rule ≠ Severity.off := by
  intro file config content f h
  exact (mem_scanFile h).2

theorem c5_no_off_findings_witness :
    getRuleLevel cfgFooError findingW.rule ≠ Severity.off :=
  c5_no_off_findings ("a.ts".toList) cfgFooError contentLineFoo findingW
    (by decide)

/-- C6: a single-line block comment suppressing `no-unused-vars` (mapped
to warning) yields exactly one Finding at line 1, column 1 with
severity=warning, and the run does not fail; the line-form re-match of
the same line extracts the rule name `no-unused-vars */`, which resolves
to off and is dropped. -/
theorem c6_block_round_trip :
    scanFile ("a.ts".toList) cfgNoUnusedVars contentBlock =
      [⟨("a.ts".toList), 1, 1, Severity.warning, ("no-unused-vars".toList)⟩]
    ∧ (runChecker [(("a.ts".toList), cfgNoUnusedVars, contentBlock)]).2 = false
    ∧ lineMatch (lineAt contentBlock 0) = some ("no-unused-vars */".toList)
    ∧ getRuleLevel cfgNoUnusedVars ("no-unused-vars */".toList) =
        Severity.off := by
  decide

/-- C7: `// eslint-disable-line foo, bar` with both rules at error
severity yields exactly two Findings, one per rule, on the same line, and
the run fails; the directive has no `--` separator, so per the spec's
split its justification is missing. -/
theorem c7_two_rules_two_findings :
    runChecker [(("a.ts".toList), cfgFooBarError, contentFooBar)] =
      ([⟨("a.ts".toList), 1, 24, Severity.error, ("foo".toList)⟩,
        ⟨("a.ts".toList), 1, 29, Severity.error, ("bar".toList)⟩], true)
    ∧ lineMatch contentFooBar = some ("foo, bar".toList)
    ∧ justificationMissingSpec ("foo, bar".toList) = true := by
  decide

/-- C8: every line-form Finding reports the 1-based number of the line
containing the directive, and its column is the 1-based index of the
first occurrence of the rule-name substring within that line. -/
theorem c8_line_position :
    ∀ (file : Str) (config : Config) (content : Str) (f : DisabledRule),
      f ∈ lineFindings file config content →
      1 ≤ f.line ∧ f.line ≤ (splitOnElem '\n' content).length ∧
        f.rule ∈ lineRules (lineAt content (f.line - 1)) ∧
        f.column = jsIndexOf (lineAt content (f.line - 1)) f.rule + 1 := by
  intro file config content f h
  unfold lineFindings at h
  obtain ⟨j, hj, hline, hr, hc, _, _, _⟩ := lineFindingsAux_mem _ 0 f h
  have hj1 : f.line - 1 = j := by omega
  refine ⟨by omega, by omega, ?_, ?_⟩
  · unfold lineAt
    rw [hj1]
    exact hr
  · unfold lineAt
    rw [hj1]
    exact hc

theorem c8_line_position_witness :
    1 ≤ findingW.line ∧
      findingW.line ≤ (splitOnElem '\n' contentLineFoo).length ∧
      findingW.rule ∈ lineRules (lineAt contentLineFoo (findingW.line - 1)) ∧
      findingW.column =
        jsIndexOf (lineAt contentLineFoo (findingW.line - 1)) findingW.rule
          + 1 :=
  c8_line_position ("a.ts".toList) cfgFooError contentLineFoo findingW
    (by decide)

/-- C9: every Finding has line ≥ 1 and column ≥ 1: block findings use the
constant position (1,1), and for line findings the trimmed rule name is a
contiguous substring of the matched line, so the first-occurrence lookup
never yields the −1 sentinel. -/
theorem c9_position_positive :
    ∀ (file : Str) (config : Config) (content : Str) (f : DisabledRule),
      f ∈ scanFile file config content → 1 ≤ f.line ∧ 1 ≤ f.column := by
  intro file config content f h
  unfold scanFile at h
  rcases List.mem_append.mp h with h1 | h2
  · obtain ⟨_, hl, hc, _, _⟩ := mem_blockFindings h1
    rw [hl, hc]
    exact ⟨le_refl 1, le_refl 1⟩
  · unfold lineFindings at h2
    obtain ⟨j, hj, hline, hr, hc, _, _, _⟩ := lineFindingsAux_mem _ 0 f h2
    obtain ⟨hne, hsub⟩ := mem_lineRules hr
    have h0 : 0 ≤ jsIndexOf ((splitOnElem '\n' content).getD j []) f.rule :=
      jsIndexOf_nonneg hsub
    constructor
    · omega
    · rw [hc]
      omega

theorem c9_position_positive_witness :
    1 ≤ findingW.line ∧ 1 ≤ findingW.column :=
  c9_position_positive ("a.ts".toList) cfgFooError contentLineFoo findingW
    (by decide)

/-- C10: a directive whose rule list is empty or all-whitespace produces
zero Findings: a whitespace-only rule string parses to the empty rule
list (entries are comma-split, trimmed, and empty entries dropped), and
the concrete files `/* eslint-disable */` and a line marker followed only
by whitespace produce no Findings. -/
theorem c10_empty_rule_list :
    (∀ s : Str, s.all isJsWs = true → parseRules s = [])
    ∧ scanFile ("a.ts".toList) cfgFooError contentEmptyBlock = []
    ∧ scanFile ("a.ts".toList) cfgFooError contentEmptyLine = [] := by
  refine ⟨?_, by decide, by decide⟩
  intro s hs
  have hall : ∀ c ∈ s, isJsWs c = true := List.all_eq_true.mp hs
  have hnc : ',' ∉ s := by
    intro hm
    exact absurd (hall ',' hm) (by decide)
  unfold parseRules
  rw [splitOnElem_of_not_mem hnc]
  simp [jsTrim_eq_nil_of_all hall]

theorem c10_empty_rule_list_witness : parseRules (" \t ".toList) = [] :=
  c10_empty_rule_list.1 (" \t ".toList) (by decide)
